import Mathlib

set_option autoImplicit false
set_option linter.unusedSectionVars false

/-!
Verification of the molecule-dataset module (`lib/molecules.py`).

Shallow embedding of the source file: the categorical `Dictionary`, the dense
`Molecule` record, the dense-to-sparse graph conversion of
`MoleculeDGL._prepare`, the batch collator of `MoleculeDataset.collate`, and
the record-to-SMILES path `from_pymol_to_smile`.

Modelling conventions: Python dictionaries are insertion-ordered association
lists (`dlookup` is `d[k]`, `dinsert` is `d[k] = v`); torch integer tensors
are `List ℤ` (matrices `List (List ℤ)`); floats are `ℚ` (exact values) with
the final elementwise `sqrt` living in `ℝ`; a raised Python exception is
`Except.error`.
-/

section PyDict

variable {κ β : Type} [DecidableEq κ]

/-- Python `d[k]` on an insertion-ordered dictionary; `none` models `KeyError`. -/
def dlookup (m : List (κ × β)) (k : κ) : Option β :=
  (m.find? (fun p => p.1 = k)).map (fun p => p.2)

/-- Python `d[k] = v`: overwrite in place when the key is present (CPython
dicts keep the original key position), append otherwise. -/
def dinsert : List (κ × β) → κ → β → List (κ × β)
  | [], k, v => [(k, v)]
  | p :: rest, k, v => if p.1 = k then (k, v) :: rest else p :: dinsert rest k v

@[simp]
theorem dlookup_nil (k : κ) : dlookup ([] : List (κ × β)) k = none := rfl

theorem dlookup_cons (p : κ × β) (m : List (κ × β)) (k : κ) :
    dlookup (p :: m) k = if p.1 = k then some p.2 else dlookup m k := by
  by_cases h : p.1 = k <;> simp [dlookup, List.find?_cons, h]

@[simp]
theorem dlookup_dinsert_self (m : List (κ × β)) (k : κ) (v : β) :
    dlookup (dinsert m k v) k = some v := by
  induction m with
  | nil => simp [dinsert, dlookup_cons]
  | cons p rest ih =>
    by_cases h : p.1 = k
    · simp [dinsert, h, dlookup_cons]
    · simp [dinsert, h, dlookup_cons, ih]

theorem dlookup_dinsert_ne (m : List (κ × β)) {k q : κ} (h : q ≠ k) (v : β) :
    dlookup (dinsert m k v) q = dlookup m q := by
  induction m with
  | nil => simp [dinsert, dlookup_cons, Ne.symm h]
  | cons p rest ih =>
    by_cases hp : p.1 = k
    · subst hp
      simp [dinsert, dlookup_cons, Ne.symm h]
    · simp [dinsert, hp, dlookup_cons, ih]

theorem dlookup_eq_none_iff (m : List (κ × β)) (k : κ) :
    dlookup m k = none ↔ ∀ p ∈ m, p.1 ≠ k := by
  simp [dlookup, List.find?_eq_none]

theorem dlookup_append_of_none {m₁ : List (κ × β)} (m₂ : List (κ × β)) {k : κ}
    (h : dlookup m₁ k = none) : dlookup (m₁ ++ m₂) k = dlookup m₂ k := by
  induction m₁ with
  | nil => simp
  | cons p rest ih =>
    rw [dlookup_cons] at h
    by_cases hp : p.1 = k
    · simp [hp] at h
    · rw [List.cons_append, dlookup_cons, if_neg hp]
      exact ih (by simpa [hp] using h)

theorem dinsert_of_forall_ne {m : List (κ × β)} {k : κ} (h : ∀ p ∈ m, p.1 ≠ k) (v : β) :
    dinsert m k v = m ++ [(k, v)] := by
  induction m with
  | nil => simp [dinsert]
  | cons p rest ih =>
    have hp : p.1 ≠ k := h p (by simp)
    simp [dinsert, hp]
    exact ih (fun q hq => h q (by simp [hq]))

theorem dinsert_append_left {m₁ : List (κ × β)} {k : κ} (h : ∀ p ∈ m₁, p.1 ≠ k)
    (m₂ : List (κ × β)) (v : β) :
    dinsert (m₁ ++ m₂) k v = m₁ ++ dinsert m₂ k v := by
  induction m₁ with
  | nil => simp
  | cons p rest ih =>
    have hp : p.1 ≠ k := h p (by simp)
    simp [dinsert, hp]
    exact ih (fun q hq => h q (by simp [hq]))

/-- Python dict comprehension `{ k : f k for k in l }` (left-to-right
assignments into a fresh dict). -/
def dcomp (l : List κ) (f : κ → β) : List (κ × β) :=
  l.foldl (fun m w => dinsert m w (f w)) []

theorem dlookup_foldl_dinsert (l : List κ) (f : κ → β) (m₀ : List (κ × β)) (k : κ) :
    dlookup (l.foldl (fun m w => dinsert m w (f w)) m₀) k
      = if k ∈ l then some (f k) else dlookup m₀ k := by
  induction l generalizing m₀ with
  | nil => simp
  | cons a t ih =>
    rw [List.foldl_cons, ih]
    by_cases ht : k ∈ t
    · simp [ht]
    · by_cases ha : k = a
      · subst ha
        simp [ht]
      · simp [ht, ha, dlookup_dinsert_ne _ ha]

theorem dlookup_dcomp (l : List κ) (f : κ → β) (k : κ) :
    dlookup (dcomp l f) k = if k ∈ l then some (f k) else none := by
  simpa using dlookup_foldl_dinsert l f [] k

theorem foldl_dinsert_congr {l : List κ} {f g : κ → β} (h : ∀ w ∈ l, f w = g w)
    (m₀ : List (κ × β)) :
    l.foldl (fun m w => dinsert m w (f w)) m₀ = l.foldl (fun m w => dinsert m w (g w)) m₀ := by
  induction l generalizing m₀ with
  | nil => rfl
  | cons a t ih =>
    simp only [List.foldl_cons]
    rw [h a (by simp)]
    exact ih (fun w hw => h w (by simp [hw])) _

theorem dcomp_congr {l : List κ} {f g : κ → β} (h : ∀ w ∈ l, f w = g w) :
    dcomp l f = dcomp l g :=
  foldl_dinsert_congr h []

/-- Index-annotated copy of a list, `(element, position)` pairs starting at
`n`; `withIdx` models Python `enumerate` (with the pair swapped to
`(word, idx)` key-value order). -/
def withIdxFrom (n : Nat) : List κ → List (κ × Nat)
  | [] => []
  | a :: t => (a, n) :: withIdxFrom (n + 1) t

/-- Index-annotated copy of a list starting at position 0. -/
def withIdx (l : List κ) : List (κ × Nat) :=
  withIdxFrom 0 l

end PyDict

section DictionaryDef

variable {α : Type} [DecidableEq α]

/-- The four internal structures of the Python `Dictionary` class. -/
structure Dictionary (α : Type) where
  word2idx : List (α × Nat)
  idx2word : List α
  word2num_occurence : List (α × Nat)
  idx2num_occurence : List Nat
deriving DecidableEq, Repr

/-- `Dictionary.__init__`: all four structures empty. -/
def emptyDictionary (α : Type) : Dictionary α :=
  { word2idx := [], idx2word := [], word2num_occurence := [], idx2num_occurence := [] }

/-- `Dictionary.add_word`: register an unseen word at the next free index with
counter 0, then increment both occurrence counters for the word. -/
def Dictionary.add_word (d : Dictionary α) (w : α) : Dictionary α :=
  let d1 : Dictionary α :=
    if (dlookup d.word2idx w).isNone then
      { word2idx := dinsert d.word2idx w d.idx2word.length
        idx2word := d.idx2word ++ [w]
        word2num_occurence := dinsert d.word2num_occurence w 0
        idx2num_occurence := d.idx2num_occurence ++ [0] }
    else d
  let i := (dlookup d1.word2idx w).getD 0
  { d1 with
    word2num_occurence := dinsert d1.word2num_occurence w
      ((dlookup d1.word2num_occurence w).getD 0 + 1)
    idx2num_occurence := d1.idx2num_occurence.set i (d1.idx2num_occurence.getD i 0 + 1) }

/-- `Dictionary.get_rid_of_rare_words`: rebuild the four structures keeping the
words whose occurrence count reaches the threshold, in order, with fresh
contiguous indices (`enumerate` comprehension modelled by `dcomp` over the
index-annotated list). -/
def Dictionary.get_rid_of_rare_words (d : Dictionary α) (min_num_occurence : Nat) :
    Dictionary α :=
  let new_idx2word :=
    d.idx2word.filter (fun w => min_num_occurence ≤ (dlookup d.word2num_occurence w).getD 0)
  { word2idx := (withIdx new_idx2word).foldl (fun m p => dinsert m p.1 p.2) []
    idx2word := new_idx2word
    word2num_occurence := dcomp new_idx2word (fun w => (dlookup d.word2num_occurence w).getD 0)
    idx2num_occurence := new_idx2word.map (fun w => (dlookup d.word2num_occurence w).getD 0) }

/-- `Dictionary.__len__`. -/
def Dictionary.size (d : Dictionary α) : Nat :=
  d.idx2word.length

end DictionaryDef

section DictionaryLemmas

variable {α : Type} [DecidableEq α]

theorem withIdxFrom_map_fst (n : Nat) (l : List α) :
    (withIdxFrom n l).map Prod.fst = l := by
  induction l generalizing n with
  | nil => rfl
  | cons a t ih => simp [withIdxFrom, ih]

theorem withIdxFrom_append (n : Nat) (l₁ l₂ : List α) :
    withIdxFrom n (l₁ ++ l₂) = withIdxFrom n l₁ ++ withIdxFrom (n + l₁.length) l₂ := by
  induction l₁ generalizing n with
  | nil => simp [withIdxFrom]
  | cons a t ih =>
    simp only [List.cons_append, withIdxFrom, List.append_eq, ih (n + 1), List.length_cons]
    have harith : n + 1 + t.length = n + (t.length + 1) := by omega
    rw [harith]

theorem dlookup_withIdxFrom_of_not_mem {l : List α} {w : α} (h : w ∉ l) (n : Nat) :
    dlookup (withIdxFrom n l) w = none := by
  induction l generalizing n with
  | nil => rfl
  | cons a t ih =>
    have ha : a ≠ w := fun e => h (by simp [e])
    rw [withIdxFrom, dlookup_cons, if_neg ha]
    exact ih (fun ht => h (by simp [ht])) _

theorem dlookup_withIdxFrom_of_mem {l : List α} {w : α} (h : w ∈ l) (n : Nat) :
    ∃ i, dlookup (withIdxFrom n l) w = some (n + i) ∧ l[i]? = some w := by
  induction l generalizing n with
  | nil => cases h
  | cons a t ih =>
    by_cases ha : a = w
    · subst ha
      exact ⟨0, by simp [withIdxFrom, dlookup_cons], by simp⟩
    · have ht : w ∈ t := by
        rcases List.mem_cons.mp h with h1 | h1
        · exact absurd h1.symm ha
        · exact h1
      obtain ⟨i, hi, hget⟩ := ih ht (n + 1)
      refine ⟨i + 1, ?_, by simpa using hget⟩
      rw [withIdxFrom, dlookup_cons, if_neg ha, hi]
      congr 1
      omega

theorem dlookup_withIdxFrom_of_nodup {l : List α} (hnd : l.Nodup) {i : Nat} {w : α}
    (h : l[i]? = some w) (n : Nat) : dlookup (withIdxFrom n l) w = some (n + i) := by
  induction l generalizing n i with
  | nil => simp at h
  | cons a t ih =>
    rcases i with _ | i
    · simp only [List.getElem?_cons_zero, Option.some.injEq] at h
      subst h
      simp [withIdxFrom, dlookup_cons]
    · simp only [List.getElem?_cons_succ] at h
      have hw : w ∈ t := by
        have := List.getElem?_eq_some_iff.mp h
        obtain ⟨hlt, he⟩ := this
        exact he ▸ List.getElem_mem hlt
      have ha : a ≠ w := fun e => (List.nodup_cons.mp hnd).1 (e ▸ hw)
      rw [withIdxFrom, dlookup_cons, if_neg ha, ih (List.nodup_cons.mp hnd).2 h (n + 1)]
      congr 1
      omega

theorem foldl_dinsert_pairs_fresh {β : Type} (ps : List (α × β)) (acc : List (α × β))
    (h1 : ∀ p ∈ ps, ∀ q ∈ acc, q.1 ≠ p.1) (h2 : (ps.map Prod.fst).Nodup) :
    ps.foldl (fun m p => dinsert m p.1 p.2) acc = acc ++ ps := by
  induction ps generalizing acc with
  | nil => simp
  | cons p rest ih =>
    simp only [List.foldl_cons]
    have hfresh : ∀ q ∈ acc, q.1 ≠ p.1 := h1 p (by simp)
    rw [dinsert_of_forall_ne hfresh]
    have hstep := ih (acc ++ [(p.1, p.2)]) ?_ ?_
    · simpa using hstep
    · intro r hr q hq
      rcases List.mem_append.mp hq with hq | hq
      · exact h1 r (by simp [hr]) q hq
      · simp only [List.mem_singleton] at hq
        subst hq
        simp only [List.map_cons, List.nodup_cons] at h2
        exact fun e => h2.1 (e ▸ List.mem_map_of_mem Prod.fst hr)
    · simp only [List.map_cons, List.nodup_cons] at h2
      exact h2.2

theorem denumComp_eq_withIdx {l : List α} (h : l.Nodup) :
    (withIdx l).foldl (fun m p => dinsert m p.1 p.2) [] = withIdx l := by
  have := foldl_dinsert_pairs_fresh (α := α) (β := Nat) (withIdx l) []
    (by intro p _ q hq; cases hq) (by rw [withIdx, withIdxFrom_map_fst]; exact h)
  simpa using this

theorem dlookup_zip_map {l : List α} (g : α → Nat) (w : α) :
    dlookup (l.zip (l.map g)) w = if w ∈ l then some (g w) else none := by
  induction l with
  | nil => simp
  | cons a t ih =>
    by_cases ha : a = w
    · subst ha
      simp [List.zip_cons_cons, dlookup_cons]
    · rw [List.map_cons, List.zip_cons_cons, dlookup_cons, if_neg ha, ih]
      by_cases ht : w ∈ t
      · simp [ht, Ne.symm ha]
      · simp [ht, Ne.symm ha]

theorem dinsert_zip_map {l : List α} (hnd : l.Nodup) {w : α} (hm : w ∈ l) (g : α → Nat)
    (v : Nat) :
    dinsert (l.zip (l.map g)) w v = l.zip (l.map (fun x => if x = w then v else g x)) := by
  induction l with
  | nil => cases hm
  | cons a t ih =>
    rw [List.map_cons, List.zip_cons_cons, List.map_cons, List.zip_cons_cons]
    by_cases ha : a = w
    · subst ha
      rw [dinsert, if_pos rfl, if_pos rfl]
      have ht : ∀ x ∈ t, (if x = a then v else g x) = g x := by
        intro x hx
        have : x ≠ a := fun e => (List.nodup_cons.mp hnd).1 (e ▸ hx)
        simp [this]
      rw [List.map_congr_left ht]
    · have hw : w ∈ t := by
        rcases List.mem_cons.mp hm with h1 | h1
        · exact absurd h1.symm ha
        · exact h1
      simp only [dinsert, ha, if_false, ite_false]
      rw [ih (List.nodup_cons.mp hnd).2 hw]

theorem set_map_nodup {l : List α} (hnd : l.Nodup) {i : Nat} {w : α}
    (h : l[i]? = some w) (g : α → Nat) (v : Nat) :
    (l.map g).set i v = l.map (fun x => if x = w then v else g x) := by
  induction l generalizing i with
  | nil => simp at h
  | cons a t ih =>
    rcases i with _ | i
    · simp only [List.getElem?_cons_zero, Option.some.injEq] at h
      subst h
      simp only [List.map_cons, List.set_cons_zero, if_pos rfl]
      congr 1
      refine (List.map_congr_left ?_).symm
      intro x hx
      have : x ≠ a := fun e => (List.nodup_cons.mp hnd).1 (e ▸ hx)
      simp [this]
    · simp only [List.getElem?_cons_succ] at h
      have hw : w ∈ t := by
        obtain ⟨hlt, he⟩ := List.getElem?_eq_some_iff.mp h
        exact he ▸ List.getElem_mem hlt
      have ha : a ≠ w := fun e => (List.nodup_cons.mp hnd).1 (e ▸ hw)
      simp only [List.map_cons, List.set_cons_succ, if_neg ha]
      rw [ih (List.nodup_cons.mp hnd).2 h]

theorem set_append_singleton {β : Type} (l : List β) (a b : β) :
    (l ++ [a]).set l.length b = l ++ [b] := by
  induction l with
  | nil => rfl
  | cons x t ih => simp [List.set_cons_succ, ih]

theorem getD_append_singleton {β : Type} (l : List β) (a d : β) :
    (l ++ [a]).getD l.length d = a := by
  induction l with
  | nil => rfl
  | cons x t ih => simp [List.getD_cons_succ, ih]

end DictionaryLemmas

section DictionaryReachable

variable {α : Type} [DecidableEq α]

/-- First-occurrence subsequence of a list: the order in which `add_word`
first sees each distinct word. -/
def firstOccurrences (l : List α) : List α :=
  l.foldl (fun acc w => if w ∈ acc then acc else acc ++ [w]) []

theorem mem_foldl_firstOcc (l : List α) (acc : List α) (x : α) :
    x ∈ l.foldl (fun acc w => if w ∈ acc then acc else acc ++ [w]) acc ↔ x ∈ acc ∨ x ∈ l := by
  induction l generalizing acc with
  | nil => simp
  | cons a t ih =>
    rw [List.foldl_cons]
    by_cases ha : a ∈ acc
    · rw [if_pos ha, ih]
      constructor
      · rintro (h | h)
        · exact Or.inl h
        · exact Or.inr (List.mem_cons_of_mem _ h)
      · rintro (h | h)
        · exact Or.inl h
        · rcases List.mem_cons.mp h with rfl | h2
          · exact Or.inl ha
          · exact Or.inr h2
    · rw [if_neg ha, ih]
      constructor
      · rintro (h | h)
        · rcases List.mem_append.mp h with h2 | h2
          · exact Or.inl h2
          · exact Or.inr (List.mem_cons.mpr (Or.inl (List.mem_singleton.mp h2)))
        · exact Or.inr (List.mem_cons_of_mem _ h)
      · rintro (h | h)
        · exact Or.inl (List.mem_append.mpr (Or.inl h))
        · rcases List.mem_cons.mp h with rfl | h2
          · exact Or.inl (List.mem_append.mpr (Or.inr (by simp)))
          · exact Or.inr h2

theorem nodup_foldl_firstOcc (l : List α) (acc : List α) (h : acc.Nodup) :
    (l.foldl (fun acc w => if w ∈ acc then acc else acc ++ [w]) acc).Nodup := by
  induction l generalizing acc with
  | nil => simpa
  | cons a t ih =>
    rw [List.foldl_cons]
    by_cases ha : a ∈ acc
    · rw [if_pos ha]
      exact ih _ h
    · rw [if_neg ha]
      refine ih _ ?_
      simp [List.nodup_append, h, ha]

theorem mem_firstOccurrences (l : List α) (x : α) :
    x ∈ firstOccurrences l ↔ x ∈ l := by
  rw [firstOccurrences, mem_foldl_firstOcc]
  simp

theorem nodup_firstOccurrences (l : List α) : (firstOccurrences l).Nodup :=
  nodup_foldl_firstOcc l [] (by simp)

theorem firstOccurrences_append_singleton (l : List α) (w : α) :
    firstOccurrences (l ++ [w]) =
      if w ∈ firstOccurrences l then firstOccurrences l else firstOccurrences l ++ [w] := by
  rw [firstOccurrences, List.foldl_append]
  rfl

/-- Closed form of the Dictionary state reached by adding the words of `hist`
in order to a fresh dictionary: the word list is the first-occurrence
subsequence of `hist`, ids are list positions, and both occurrence counters
record multiplicities in `hist`. -/
def dictState (hist : List α) : Dictionary α :=
  { word2idx := withIdx (firstOccurrences hist)
    idx2word := firstOccurrences hist
    word2num_occurence :=
      (firstOccurrences hist).zip ((firstOccurrences hist).map (fun x => hist.count x))
    idx2num_occurence := (firstOccurrences hist).map (fun x => hist.count x) }

theorem add_word_dictState (hist : List α) (w : α) :
    (dictState hist).add_word w = dictState (hist ++ [w]) := by
  have hnd := nodup_firstOccurrences hist
  by_cases hmem : w ∈ firstOccurrences hist
  · -- the word is already known: only the two counters change
    obtain ⟨i, hlk, hget⟩ := dlookup_withIdxFrom_of_mem hmem 0
    rw [Nat.zero_add] at hlk
    have hF' : firstOccurrences (hist ++ [w]) = firstOccurrences hist := by
      rw [firstOccurrences_append_singleton, if_pos hmem]
    have hzip := dlookup_zip_map (l := firstOccurrences hist) (fun x => hist.count x) w
    rw [if_pos hmem] at hzip
    have hgetD : (List.map (fun x => hist.count x) (firstOccurrences hist)).getD i 0
        = hist.count w := by
      rw [List.getD_eq_getElem?_getD, List.getElem?_map, hget]
      rfl
    have hcnt : ∀ x ∈ firstOccurrences hist,
        (if x = w then hist.count w + 1 else hist.count x) = (hist ++ [w]).count x := by
      intro x hx
      rw [List.count_append]
      by_cases hxw : x = w
      · subst hxw
        simp [List.count_singleton]
      · simp [List.count_singleton, Ne.symm hxw, hxw]
    simp only [Dictionary.add_word, dictState, withIdx, hlk, Option.isNone_some,
      Bool.false_eq_true, if_false, Option.getD_some, hzip, hgetD, hF']
    rw [dinsert_zip_map hnd hmem, set_map_nodup hnd hget]
    rw [List.map_congr_left hcnt]
  · -- a fresh word is appended at index `(firstOccurrences hist).length`
    have hlk : dlookup (withIdxFrom 0 (firstOccurrences hist)) w = none :=
      dlookup_withIdxFrom_of_not_mem hmem 0
    have hF' : firstOccurrences (hist ++ [w]) = firstOccurrences hist ++ [w] := by
      rw [firstOccurrences_append_singleton, if_neg hmem]
    have hwhist : w ∉ hist := fun h => hmem ((mem_firstOccurrences hist w).mpr h)
    have hfresh1 : ∀ p ∈ withIdxFrom 0 (firstOccurrences hist), p.1 ≠ w := by
      intro p hp e
      apply hmem
      rw [← e, ← withIdxFrom_map_fst 0 (firstOccurrences hist)]
      exact List.mem_map_of_mem Prod.fst hp
    have hfresh2 : ∀ p ∈ (firstOccurrences hist).zip
        (List.map (fun x => hist.count x) (firstOccurrences hist)), p.1 ≠ w := by
      intro p hp e
      exact hmem (e ▸ (List.of_mem_zip hp).1)
    have h1 : dinsert (withIdxFrom 0 (firstOccurrences hist)) w (firstOccurrences hist).length
        = withIdxFrom 0 (firstOccurrences hist ++ [w]) := by
      rw [dinsert_of_forall_ne hfresh1, withIdxFrom_append]
      simp [withIdxFrom]
    have h2 : dinsert ((firstOccurrences hist).zip
          (List.map (fun x => hist.count x) (firstOccurrences hist))) w 0
        = (firstOccurrences hist).zip (List.map (fun x => hist.count x) (firstOccurrences hist))
          ++ [(w, 0)] :=
      dinsert_of_forall_ne hfresh2 0
    have hlk2 : dlookup (withIdxFrom 0 (firstOccurrences hist ++ [w])) w
        = some (firstOccurrences hist).length := by
      rw [withIdxFrom_append, dlookup_append_of_none _ hlk]
      simp [withIdxFrom, dlookup_cons]
    have hzipnone : dlookup ((firstOccurrences hist).zip
        (List.map (fun x => hist.count x) (firstOccurrences hist))) w = none := by
      rw [dlookup_zip_map, if_neg hmem]
    have hlk3 : dlookup ((firstOccurrences hist).zip
          (List.map (fun x => hist.count x) (firstOccurrences hist)) ++ [(w, 0)]) w
        = some 0 := by
      rw [dlookup_append_of_none _ hzipnone, dlookup_cons]
      simp
    have hcnt : ∀ x ∈ firstOccurrences hist, hist.count x = (hist ++ [w]).count x := by
      intro x hx
      have hxw : x ≠ w := fun e => hmem (e ▸ hx)
      rw [List.count_append]
      simp [List.count_singleton, Ne.symm hxw]
    have hcw : (hist ++ [w]).count w = 1 := by
      rw [List.count_append, List.count_eq_zero.mpr hwhist]
      simp [List.count_singleton]
    simp only [Dictionary.add_word, dictState, withIdx, hlk, Option.isNone_none, if_true,
      Option.getD_some, hF']
    rw [h1, h2, hlk3]
    simp only [Option.getD_some]
    rw [dinsert_append_left hfresh2, hlk2]
    simp only [Option.getD_some]
    have hsetlen : (firstOccurrences hist).length
        = (List.map (fun x => hist.count x) (firstOccurrences hist)).length := by
      simp
    rw [hsetlen, getD_append_singleton, set_append_singleton]
    have hzipgoal : (firstOccurrences hist ++ [w]).zip
          (List.map (fun x => (hist ++ [w]).count x) (firstOccurrences hist ++ [w]))
        = (firstOccurrences hist).zip
            (List.map (fun x => hist.count x) (firstOccurrences hist)) ++ [(w, 1)] := by
      rw [List.map_append, List.zip_append (by simp)]
      rw [← List.map_congr_left hcnt]
      simp [hcw, List.count_eq_zero.mpr hwhist]
    have hmapgoal : List.map (fun x => (hist ++ [w]).count x) (firstOccurrences hist ++ [w])
        = List.map (fun x => hist.count x) (firstOccurrences hist) ++ [1] := by
      rw [List.map_append, ← List.map_congr_left hcnt]
      simp [hcw, List.count_eq_zero.mpr hwhist]
    rw [hzipgoal, hmapgoal]
    simp [dinsert]

/-- Every Dictionary reachable from a fresh one by a sequence of `add_word`
calls is in the closed form `dictState`. -/
theorem foldl_add_word_eq_dictState (hist : List α) :
    hist.foldl Dictionary.add_word (emptyDictionary α) = dictState hist := by
  induction hist using List.reverseRecOn with
  | nil => rfl
  | append_singleton l w ih =>
    rw [List.foldl_append, ih, List.foldl_cons, List.foldl_nil, add_word_dictState]

end DictionaryReachable

section DictionaryClaims

variable {α : Type} [DecidableEq α]

theorem mem_of_getElem_some {β : Type} {l : List β} {i : Nat} {a : β}
    (h : l[i]? = some a) : a ∈ l := by
  obtain ⟨hlt, he⟩ := List.getElem?_eq_some_iff.mp h
  exact he ▸ List.getElem_mem hlt

/-- C4: after any finite sequence of `add_word` calls on a fresh `Dictionary`,
every added word `w` has an id `i = word2idx[w]` with `idx2word[i] = w`,
`word2num_occurence[w]` equal to the number of `add_word w` calls, and
`idx2num_occurence[i]` equal to `word2num_occurence[w]`. -/
theorem dictionary_add_word_invariants (ws : List α) (w : α) (hw : w ∈ ws) :
    ∃ i, dlookup (ws.foldl Dictionary.add_word (emptyDictionary α)).word2idx w = some i
      ∧ (ws.foldl Dictionary.add_word (emptyDictionary α)).idx2word[i]? = some w
      ∧ dlookup (ws.foldl Dictionary.add_word (emptyDictionary α)).word2num_occurence w
          = some (ws.count w)
      ∧ (ws.foldl Dictionary.add_word (emptyDictionary α)).idx2num_occurence[i]?
          = some (ws.count w) := by
  rw [foldl_add_word_eq_dictState]
  have hmem : w ∈ firstOccurrences ws := (mem_firstOccurrences ws w).mpr hw
  obtain ⟨i, hlk, hget⟩ := dlookup_withIdxFrom_of_mem hmem 0
  rw [Nat.zero_add] at hlk
  refine ⟨i, ?_, ?_, ?_, ?_⟩
  · simpa [dictState, withIdx] using hlk
  · simpa [dictState] using hget
  · simp only [dictState]
    rw [dlookup_zip_map, if_pos hmem]
  · simp only [dictState]
    rw [List.getElem?_map, hget]
    rfl

/-- C4 witness: concrete three-call run over words `3, 5, 3`. -/
theorem dictionary_add_word_invariants_witness :
    (3 : Nat) ∈ [3, 5, 3]
    ∧ ∃ i, dlookup (([3, 5, 3] : List Nat).foldl Dictionary.add_word
            (emptyDictionary Nat)).word2idx 3 = some i
        ∧ (([3, 5, 3] : List Nat).foldl Dictionary.add_word
            (emptyDictionary Nat)).idx2word[i]? = some 3
        ∧ dlookup (([3, 5, 3] : List Nat).foldl Dictionary.add_word
            (emptyDictionary Nat)).word2num_occurence 3 = some (([3, 5, 3] : List Nat).count 3)
        ∧ (([3, 5, 3] : List Nat).foldl Dictionary.add_word
            (emptyDictionary Nat)).idx2num_occurence[i]? = some (([3, 5, 3] : List Nat).count 3) :=
  ⟨by decide, dictionary_add_word_invariants [3, 5, 3] 3 (by decide)⟩

/-- Unfolded form of `get_rid_of_rare_words` (definitional). -/
theorem get_rid_def (d : Dictionary α) (t : Nat) :
    d.get_rid_of_rare_words t =
      { word2idx := (withIdx (d.idx2word.filter
            (fun w => t ≤ (dlookup d.word2num_occurence w).getD 0))).foldl
            (fun m p => dinsert m p.1 p.2) []
        idx2word := d.idx2word.filter (fun w => t ≤ (dlookup d.word2num_occurence w).getD 0)
        word2num_occurence := dcomp (d.idx2word.filter
            (fun w => t ≤ (dlookup d.word2num_occurence w).getD 0))
            (fun w => (dlookup d.word2num_occurence w).getD 0)
        idx2num_occurence := (d.idx2word.filter
            (fun w => t ≤ (dlookup d.word2num_occurence w).getD 0)).map
            (fun w => (dlookup d.word2num_occurence w).getD 0) } := rfl

/-- C5: on any state reachable by `add_word` calls from a fresh dictionary,
pruning keeps exactly the words whose occurrence count reaches the threshold,
as a subsequence (original relative order), reassigns dense contiguous ids
`0..k-1` in that order, and preserves each survivor's occurrence count in both
counters. -/
theorem dictionary_prune_spec (ws : List α) (t : Nat) (d : Dictionary α)
    (hd : d = ws.foldl Dictionary.add_word (emptyDictionary α)) :
    ((d.get_rid_of_rare_words t).idx2word.Sublist d.idx2word)
    ∧ (∀ w, w ∈ (d.get_rid_of_rare_words t).idx2word ↔ w ∈ d.idx2word ∧ t ≤ ws.count w)
    ∧ (∀ i w, (d.get_rid_of_rare_words t).idx2word[i]? = some w →
        dlookup (d.get_rid_of_rare_words t).word2idx w = some i
        ∧ dlookup (d.get_rid_of_rare_words t).word2num_occurence w = some (ws.count w)
        ∧ dlookup d.word2num_occurence w = some (ws.count w)
        ∧ (d.get_rid_of_rare_words t).idx2num_occurence[i]? = some (ws.count w)) := by
  subst hd
  rw [foldl_add_word_eq_dictState]
  have hnd := nodup_firstOccurrences ws
  have hfeq : (firstOccurrences ws).filter
        (fun w => decide (t ≤ (dlookup (dictState ws).word2num_occurence w).getD 0))
      = (firstOccurrences ws).filter (fun w => decide (t ≤ ws.count w)) := by
    refine List.filter_congr ?_
    intro x hx
    have hx2 : (dlookup (dictState ws).word2num_occurence x).getD 0 = ws.count x := by
      simp only [dictState]
      rw [dlookup_zip_map, if_pos hx]
      rfl
    simp only [hx2]
  have hidx : (dictState ws).idx2word = firstOccurrences ws := rfl
  have hLnd : ((firstOccurrences ws).filter (fun w => decide (t ≤ ws.count w))).Nodup :=
    hnd.filter _
  constructor
  · rw [get_rid_def]
    exact List.filter_sublist _
  constructor
  · intro w
    rw [get_rid_def]
    simp only [hidx]
    rw [hfeq]
    simp [List.mem_filter]
  · intro i w hw
    rw [get_rid_def] at hw ⊢
    simp only [hidx] at hw ⊢
    rw [hfeq] at hw ⊢
    have hwmem : w ∈ (firstOccurrences ws).filter (fun w => decide (t ≤ ws.count w)) :=
      mem_of_getElem_some hw
    have hwF : w ∈ firstOccurrences ws := (List.mem_filter.mp hwmem).1
    refine ⟨?_, ?_, ?_, ?_⟩
    · rw [denumComp_eq_withIdx hLnd, withIdx]
      have := dlookup_withIdxFrom_of_nodup hLnd hw 0
      simpa using this
    · rw [dcomp_congr (fun x hx => ?_), dlookup_dcomp, if_pos hwmem]
      simp only [dictState]
      rw [dlookup_zip_map, if_pos (List.mem_filter.mp hx).1]
      rfl
    · simp only [dictState]
      rw [dlookup_zip_map, if_pos hwF]
    · rw [List.getElem?_map, hw]
      have hx2 : (dlookup ((firstOccurrences ws).zip
            (List.map (fun x => ws.count x) (firstOccurrences ws))) w).getD 0 = ws.count w := by
        rw [dlookup_zip_map, if_pos hwF]
        rfl
      simp only [dictState, Option.map_some, Option.map_some', hx2]

/-- C5 witness: concrete run over words `1, 1, 2` pruned at threshold 2. -/
theorem dictionary_prune_spec_witness :
    let d := ([1, 1, 2] : List Nat).foldl Dictionary.add_word (emptyDictionary Nat)
    ((d.get_rid_of_rare_words 2).idx2word.Sublist d.idx2word)
    ∧ (∀ w, w ∈ (d.get_rid_of_rare_words 2).idx2word
        ↔ w ∈ d.idx2word ∧ 2 ≤ ([1, 1, 2] : List Nat).count w)
    ∧ (∀ i w, (d.get_rid_of_rare_words 2).idx2word[i]? = some w →
        dlookup (d.get_rid_of_rare_words 2).word2idx w = some i
        ∧ dlookup (d.get_rid_of_rare_words 2).word2num_occurence w
            = some (([1, 1, 2] : List Nat).count w)
        ∧ dlookup d.word2num_occurence w = some (([1, 1, 2] : List Nat).count w)
        ∧ (d.get_rid_of_rare_words 2).idx2num_occurence[i]?
            = some (([1, 1, 2] : List Nat).count w)) :=
  dictionary_prune_spec [1, 1, 2] 2 _ rfl

/-- C6: pruning twice with the same threshold gives the same four structures
as pruning once, for every dictionary state and threshold. -/
theorem dictionary_prune_idempotent (d : Dictionary α) (t : Nat) :
    (d.get_rid_of_rare_words t).get_rid_of_rare_words t = d.get_rid_of_rare_words t := by
  have hLook : ∀ w ∈ d.idx2word.filter
        (fun w => decide (t ≤ (dlookup d.word2num_occurence w).getD 0)),
      dlookup ((d.get_rid_of_rare_words t).word2num_occurence) w
        = some ((dlookup d.word2num_occurence w).getD 0) := by
    intro w hw
    rw [get_rid_def]
    exact (dlookup_dcomp _ _ w).trans (if_pos hw)
  have hfilter : (d.get_rid_of_rare_words t).idx2word.filter
        (fun w => decide (t ≤ (dlookup (d.get_rid_of_rare_words t).word2num_occurence w).getD 0))
      = (d.get_rid_of_rare_words t).idx2word := by
    refine List.filter_eq_self.mpr ?_
    intro w hw
    rw [get_rid_def] at hw
    simp only [hLook w hw, Option.getD_some]
    exact (List.mem_filter.mp hw).2
  have hval : ∀ w ∈ (d.get_rid_of_rare_words t).idx2word,
      (dlookup ((d.get_rid_of_rare_words t).word2num_occurence) w).getD 0
        = (dlookup d.word2num_occurence w).getD 0 := by
    intro w hw
    rw [get_rid_def] at hw
    simp only [hLook w hw, Option.getD_some]
  rw [get_rid_def (d.get_rid_of_rare_words t) t, hfilter]
  rw [dcomp_congr hval, List.map_congr_left hval]
  rw [get_rid_def d t]

end DictionaryClaims

section MoleculeDef

/-- The empty string (fresh `smile` fields and lookup defaults). -/
def emptyStr : String := ""

/-- Matrix entry `bond[i][j]` of a row-major integer matrix (0, the code for
"no bond", when out of range). -/
def entry (bond : List (List Int)) (i j : Nat) : Int :=
  (bond.getD i []).getD j 0

/-- One `Molecule` record; torch long tensors are integer lists, the two
float scalars exact rationals. -/
structure Molecule where
  num_atom : Nat
  atom_type : List Int
  atom_type_pe : List Int
  bond_type : List (List Int)
  bag_of_atoms : List Int
  logP_SA : Rat
  logP_SA_cycle_normalized : Rat
  smile : String
deriving DecidableEq, Repr

/-- Body of `Molecule.set_atom_type_pe`: a single left-to-right scan carrying
the running `histogram` dict, writing the stored counter after each update. -/
def peScan : List Int → List (Int × Nat) → List Int
  | [], _ => []
  | tp :: rest, histogram =>
    let histogram' :=
      if (dlookup histogram tp).isNone then dinsert histogram tp 0
      else dinsert histogram tp ((dlookup histogram tp).getD 0 + 1)
    Int.ofNat ((dlookup histogram' tp).getD 0) :: peScan rest histogram'

/-- `Molecule.set_atom_type_pe`. -/
def Molecule.set_atom_type_pe (m : Molecule) : Molecule :=
  { m with atom_type_pe := peScan m.atom_type [] }

/-- `Molecule.shuffle_indexing`, with the permutation `idx` drawn by
`torch.randperm(num_atom)` made an explicit argument; `atom_type` and
`atom_type_pe` are permuted by `idx`, `bond_type` by `idx` on both
dimensions (`[idx][:,idx]`), and `idx` is returned. -/
def Molecule.shuffle_indexing (m : Molecule) (idx : List Nat) : Molecule × List Nat :=
  ({ m with
      atom_type := idx.map (fun i => m.atom_type.getD i 0)
      atom_type_pe := idx.map (fun i => m.atom_type_pe.getD i 0)
      bond_type := idx.map (fun i => idx.map (fun j => entry m.bond_type i j)) }, idx)

end MoleculeDef

section MoleculeLemmas

theorem getD_map_lt {γ δ : Type} (f : γ → δ) (l : List γ) {a : Nat} (h : a < l.length)
    (d : γ) (e : δ) : (l.map f).getD a e = f (l.getD a d) := by
  rw [List.getD_eq_getElem (l.map f) e (by simpa), List.getD_eq_getElem l d h,
    List.getElem_map]

theorem map_getD_range {γ : Type} (l : List γ) (d : γ) :
    (List.range l.length).map (fun i => l.getD i d) = l := by
  refine List.ext_getElem (by simp) ?_
  intro n h1 h2
  rw [List.getElem_map, List.getElem_range, List.getD_eq_getElem l d h2]

theorem peScan_spec (l : List Int) :
    ∀ (pre : List Int) (histogram : List (Int × Nat)),
      (∀ t, dlookup histogram t = if t ∈ pre then some (pre.count t - 1) else none) →
      ∀ i, i < l.length →
        (peScan l histogram)[i]? = some (Int.ofNat ((pre ++ l.take i).count (l.getD i 0))) := by
  induction l with
  | nil =>
    intro pre histogram hh i hi
    simp at hi
  | cons tp rest ih =>
    intro pre histogram hh i hi
    have hcur : dlookup
        (if (dlookup histogram tp).isNone then dinsert histogram tp 0
         else dinsert histogram tp ((dlookup histogram tp).getD 0 + 1)) tp
        = some (pre.count tp) := by
      by_cases hmem : tp ∈ pre
      · have hp : 1 ≤ pre.count tp := List.count_pos_iff.mpr hmem
        rw [hh tp, if_pos hmem]
        simp only [Option.isNone_some, Bool.false_eq_true, if_false, ite_false,
          Option.getD_some, dlookup_dinsert_self]
        congr 1
        omega
      · rw [hh tp, if_neg hmem]
        simp only [Option.isNone_none, if_true, ite_true, dlookup_dinsert_self]
        rw [List.count_eq_zero.mpr hmem]
    have hnext : ∀ t, dlookup
        (if (dlookup histogram tp).isNone then dinsert histogram tp 0
         else dinsert histogram tp ((dlookup histogram tp).getD 0 + 1)) t
        = if t ∈ pre ++ [tp] then some ((pre ++ [tp]).count t - 1) else none := by
      intro t
      by_cases ht : t = tp
      · subst ht
        rw [hcur, if_pos (by simp)]
        rw [List.count_append]
        simp [List.count_singleton]
      · have : dlookup
            (if (dlookup histogram tp).isNone then dinsert histogram tp 0
             else dinsert histogram tp ((dlookup histogram tp).getD 0 + 1)) t
            = dlookup histogram t := by
          by_cases hn : (dlookup histogram tp).isNone
          · rw [if_pos hn, dlookup_dinsert_ne _ ht]
          · rw [if_neg hn, dlookup_dinsert_ne _ ht]
        rw [this, hh t]
        have hmem : (t ∈ pre ++ [tp]) = (t ∈ pre) := by
          simp [List.mem_append, ht]
        have hcnt : (pre ++ [tp]).count t = pre.count t := by
          rw [List.count_append]
          simp [List.count_singleton, Ne.symm ht]
        simp only [hmem, hcnt]
    rcases i with _ | i
    · simp only [peScan, List.getElem?_cons_zero, Option.some.injEq]
      rw [hcur]
      simp
    · simp only [peScan, List.getElem?_cons_succ]
      have := ih (pre ++ [tp]) _ hnext i (by simpa using hi)
      rw [this]
      congr 2
      · rw [List.append_assoc]
        rfl

end MoleculeLemmas

section MoleculeClaims

/-- C8: after `set_atom_type_pe`, the value at each position `i` is the number
of earlier positions holding the same atom type (0-based repeat rank, single
left-to-right scan). -/
theorem molecule_atom_type_pe_spec (m : Molecule) (i : Nat)
    (hlen : m.atom_type.length = m.num_atom) (hi : i < m.num_atom) :
    m.set_atom_type_pe.atom_type_pe[i]?
      = some (Int.ofNat ((m.atom_type.take i).count (m.atom_type.getD i 0))) := by
  have h := peScan_spec m.atom_type [] [] (by intro t; simp) i (by omega)
  simpa [Molecule.set_atom_type_pe] using h

/-- C8 witness: atom types `0, 1, 0`; the third atom is the second `0`, so its
positional encoding is 1. -/
theorem molecule_atom_type_pe_spec_witness :
    ((([0, 1, 0] : List Int).length = 3 ∧ 2 < 3)
    ∧ (Molecule.set_atom_type_pe
        ⟨3, [0, 1, 0], [0, 0, 0], [], [], 0, 0, emptyStr⟩).atom_type_pe[2]?
        = some (Int.ofNat ((([0, 1, 0] : List Int).take 2).count
            (([0, 1, 0] : List Int).getD 2 0)))) :=
  ⟨⟨by decide, by decide⟩,
    molecule_atom_type_pe_spec ⟨3, [0, 1, 0], [0, 0, 0], [], [], 0, 0, emptyStr⟩ 2
      (by decide) (by decide)⟩

/-- C10: `shuffle_indexing` touches only the three atom-indexed tensors; the
other five fields of the record are returned unchanged. -/
theorem molecule_shuffle_indexing_frame (m : Molecule) (idx : List Nat) :
    (m.shuffle_indexing idx).1.num_atom = m.num_atom
    ∧ (m.shuffle_indexing idx).1.bag_of_atoms = m.bag_of_atoms
    ∧ (m.shuffle_indexing idx).1.logP_SA = m.logP_SA
    ∧ (m.shuffle_indexing idx).1.logP_SA_cycle_normalized = m.logP_SA_cycle_normalized
    ∧ (m.shuffle_indexing idx).1.smile = m.smile :=
  ⟨rfl, rfl, rfl, rfl, rfl⟩

end MoleculeClaims

section ShufflePerm

/-- All ordered index pairs `(i, j)` with `i, j < N`, row-major. -/
def allPairs (N : Nat) : List (Nat × Nat) :=
  (List.range N).product (List.range N)

theorem mem_allPairs {N : Nat} {p : Nat × Nat} (hp : p ∈ allPairs N) :
    p.1 < N ∧ p.2 < N := by
  obtain ⟨a, b⟩ := p
  have := List.mem_product.mp hp
  simpa using this

theorem allPairs_map_reindex (N : Nat) (f : Nat → Nat) :
    (allPairs N).map (fun p => (f p.1, f p.2))
      = ((List.range N).map f).product ((List.range N).map f) := by
  simp only [allPairs, List.product, List.map_flatMap, List.flatMap_map, List.map_map]
  rfl

theorem perm_allPairs_of_perm {idx : List Nat} {N : Nat}
    (hperm : idx.Perm (List.range N)) :
    ((allPairs N).map (fun p => (idx.getD p.1 0, idx.getD p.2 0))).Perm (allPairs N) := by
  have hlen : idx.length = N := hperm.length_eq.trans (List.length_range N)
  have hmap : (List.range N).map (fun i => idx.getD i 0) = idx := by
    rw [show N = idx.length from hlen.symm]
    exact map_getD_range idx 0
  have key : (allPairs N).map (fun p => (idx.getD p.1 0, idx.getD p.2 0))
      = ((List.range N).map (fun i => idx.getD i 0)).product
          ((List.range N).map (fun i => idx.getD i 0)) :=
    allPairs_map_reindex N (fun i => idx.getD i 0)
  rw [key, hmap]
  exact List.Perm.product hperm hperm

/-- C7: `shuffle_indexing` applies the one permutation `idx` to both atom
tensors and jointly to both dimensions of `bond_type`, returns `idx`, and the
multiset of (unordered underlying-atom pair, bond value) entries is invariant:
tagging each shuffled cell `(a, b)` with the original atom pair
`{idx a, idx b}` gives a permutation of the original tagged cell list. -/
theorem molecule_shuffle_indexing_spec (m : Molecule) (idx : List Nat)
    (hperm : idx.Perm (List.range m.num_atom)) :
    ((m.shuffle_indexing idx).2 = idx)
    ∧ (∀ a, a < m.num_atom →
        (m.shuffle_indexing idx).1.atom_type.getD a 0 = m.atom_type.getD (idx.getD a 0) 0
        ∧ (m.shuffle_indexing idx).1.atom_type_pe.getD a 0
            = m.atom_type_pe.getD (idx.getD a 0) 0)
    ∧ (∀ a b, a < m.num_atom → b < m.num_atom →
        entry (m.shuffle_indexing idx).1.bond_type a b
          = entry m.bond_type (idx.getD a 0) (idx.getD b 0))
    ∧ ((allPairs m.num_atom).map (fun p =>
          ((min (idx.getD p.1 0) (idx.getD p.2 0), max (idx.getD p.1 0) (idx.getD p.2 0)),
            entry (m.shuffle_indexing idx).1.bond_type p.1 p.2))).Perm
        ((allPairs m.num_atom).map (fun p =>
          ((min p.1 p.2, max p.1 p.2), entry m.bond_type p.1 p.2))) := by
  have hlen : idx.length = m.num_atom := hperm.length_eq.trans (List.length_range _)
  have hbond : ∀ a b, a < m.num_atom → b < m.num_atom →
      entry (m.shuffle_indexing idx).1.bond_type a b
        = entry m.bond_type (idx.getD a 0) (idx.getD b 0) := by
    intro a b ha hb
    show entry (idx.map (fun i => idx.map (fun j => entry m.bond_type i j))) a b = _
    rw [entry, getD_map_lt _ idx (by omega) 0 []]
    rw [getD_map_lt _ idx (by omega) 0 0]
  refine ⟨rfl, ?_, hbond, ?_⟩
  · intro a ha
    constructor
    · show (idx.map (fun i => m.atom_type.getD i 0)).getD a 0 = _
      rw [getD_map_lt _ idx (by omega) 0 0]
    · show (idx.map (fun i => m.atom_type_pe.getD i 0)).getD a 0 = _
      rw [getD_map_lt _ idx (by omega) 0 0]
  · have hcongr : (allPairs m.num_atom).map (fun p =>
          ((min (idx.getD p.1 0) (idx.getD p.2 0), max (idx.getD p.1 0) (idx.getD p.2 0)),
            entry (m.shuffle_indexing idx).1.bond_type p.1 p.2))
        = (allPairs m.num_atom).map ((fun q =>
            ((min q.1 q.2, max q.1 q.2), entry m.bond_type q.1 q.2))
          ∘ (fun p => (idx.getD p.1 0, idx.getD p.2 0))) := by
      refine List.map_congr_left ?_
      intro p hp
      obtain ⟨h1, h2⟩ := mem_allPairs hp
      simp only [Function.comp]
      rw [hbond p.1 p.2 h1 h2]
    rw [hcongr, ← List.map_map]
    exact List.Perm.map _ (perm_allPairs_of_perm hperm)

/-- C7 witness: a 2-atom molecule swapped by the permutation `[1, 0]`. -/
theorem molecule_shuffle_indexing_spec_witness :
    (([1, 0] : List Nat).Perm (List.range 2))
    ∧ (((Molecule.shuffle_indexing
          ⟨2, [5, 7], [0, 0], [[0, 1], [2, 3]], [], 0, 0, emptyStr⟩ [1, 0]).2 = [1, 0])
    ∧ (∀ a, a < 2 →
        (Molecule.shuffle_indexing
            ⟨2, [5, 7], [0, 0], [[0, 1], [2, 3]], [], 0, 0, emptyStr⟩ [1, 0]).1.atom_type.getD a 0
          = ([5, 7] : List Int).getD (([1, 0] : List Nat).getD a 0) 0
        ∧ (Molecule.shuffle_indexing
            ⟨2, [5, 7], [0, 0], [[0, 1], [2, 3]], [], 0, 0,
              emptyStr⟩ [1, 0]).1.atom_type_pe.getD a 0
          = ([0, 0] : List Int).getD (([1, 0] : List Nat).getD a 0) 0)
    ∧ (∀ a b, a < 2 → b < 2 →
        entry (Molecule.shuffle_indexing
            ⟨2, [5, 7], [0, 0], [[0, 1], [2, 3]], [], 0, 0, emptyStr⟩ [1, 0]).1.bond_type a b
          = entry [[0, 1], [2, 3]] (([1, 0] : List Nat).getD a 0) (([1, 0] : List Nat).getD b 0))
    ∧ ((allPairs 2).map (fun p =>
          ((min (([1, 0] : List Nat).getD p.1 0) (([1, 0] : List Nat).getD p.2 0),
              max (([1, 0] : List Nat).getD p.1 0) (([1, 0] : List Nat).getD p.2 0)),
            entry (Molecule.shuffle_indexing
              ⟨2, [5, 7], [0, 0], [[0, 1], [2, 3]], [], 0, 0,
                emptyStr⟩ [1, 0]).1.bond_type p.1 p.2))).Perm
        ((allPairs 2).map (fun p =>
          ((min p.1 p.2, max p.1 p.2), entry [[0, 1], [2, 3]] p.1 p.2)))) :=
  ⟨by decide,
    molecule_shuffle_indexing_spec
      ⟨2, [5, 7], [0, 0], [[0, 1], [2, 3]], [], 0, 0, emptyStr⟩ [1, 0] (by decide)⟩

end ShufflePerm

section GraphConverter

/-- Row-major enumeration of all cells of a row-major matrix. -/
def rowMajorCells (adj : List (List Int)) : List (Nat × Nat) :=
  (List.range adj.length).flatMap (fun i =>
    (List.range (adj.getD i []).length).map (fun j => (i, j)))

/-- `(adj != 0).nonzero()` in `MoleculeDGL._prepare`: the row-major list of
index pairs of nonzero entries of the bond matrix. -/
def prepare_edge_list (adj : List (List Int)) : List (Nat × Nat) :=
  (List.range adj.length).flatMap (fun i =>
    (List.range (adj.getD i []).length).filterMap (fun j =>
      if entry adj i j ≠ 0 then some (i, j) else none))

/-- `adj[edge_idxs_in_adj].reshape(-1)` in `MoleculeDGL._prepare`: the gather
of the bond matrix at the edge index pairs, in edge-list order. -/
def prepare_edge_features (adj : List (List Int)) : List Int :=
  (prepare_edge_list adj).map (fun p => entry adj p.1 p.2)

/-- Number of nonzero cells of a matrix. -/
def countNonzero (adj : List (List Int)) : Nat :=
  (adj.map (fun row => row.countP (fun x => x ≠ 0))).sum

theorem filterMap_if_eq_filter_map {γ δ : Type} (l : List γ) (p : γ → Prop)
    [DecidablePred p] (f : γ → δ) :
    l.filterMap (fun x => if p x then some (f x) else none)
      = (l.filter (fun x => p x)).map f := by
  induction l with
  | nil => rfl
  | cons a t ih =>
    by_cases h : p a
    · simp [List.filterMap_cons, List.filter_cons, h, ih]
    · simp [List.filterMap_cons, List.filter_cons, h, ih]

theorem countP_getD_range {γ : Type} (l : List γ) (d : γ) (p : γ → Bool) :
    (List.range l.length).countP (fun j => p (l.getD j d)) = l.countP p := by
  conv_rhs => rw [← map_getD_range l d]
  rw [List.countP_map]
  rfl

theorem prepare_edge_list_eq_filter (adj : List (List Int)) :
    prepare_edge_list adj
      = (rowMajorCells adj).filter (fun p => entry adj p.1 p.2 ≠ 0) := by
  rw [prepare_edge_list, rowMajorCells, List.filter_flatMap]
  refine congrArg (List.flatMap (List.range adj.length)) (funext fun i => ?_)
  rw [filterMap_if_eq_filter_map, List.filter_map]
  rfl

theorem prepare_edge_list_length (adj : List (List Int)) :
    (prepare_edge_list adj).length = countNonzero adj := by
  rw [prepare_edge_list, List.length_flatMap, countNonzero]
  have hrow : ∀ i ∈ List.range adj.length,
      (List.length ∘ fun i => (List.range (adj.getD i []).length).filterMap (fun j =>
          if entry adj i j ≠ 0 then some (i, j) else none)) i
        = (adj.getD i []).countP (fun x => decide (x ≠ 0)) := by
    intro i _
    show ((List.range (adj.getD i []).length).filterMap (fun j =>
        if entry adj i j ≠ 0 then some (i, j) else none)).length = _
    rw [filterMap_if_eq_filter_map, List.length_map, ← List.countP_eq_length_filter]
    rw [← countP_getD_range (adj.getD i []) 0 (fun x => decide (x ≠ 0))]
    rfl
  rw [List.map_congr_left hrow]
  refine congrArg List.sum ?_
  conv_rhs => rw [← map_getD_range adj []]
  rw [List.map_map]
  rfl

/-- C1: the graph converter emits one edge per nonzero cell of `bond_type` in
row-major order, with no deduplication, symmetrization, or self-loop
filtering; the edge count equals the number of nonzero cells, and the k-th
edge feature is the bond value at the k-th emitted edge pair. -/
theorem prepare_graph_spec (m : Molecule) :
    (prepare_edge_list m.bond_type
        = (rowMajorCells m.bond_type).filter (fun p => entry m.bond_type p.1 p.2 ≠ 0))
    ∧ (prepare_edge_list m.bond_type).length = countNonzero m.bond_type
    ∧ (∀ k : Nat, (prepare_edge_features m.bond_type)[k]?
        = ((prepare_edge_list m.bond_type)[k]?).map
            (fun p : Nat × Nat => entry m.bond_type p.1 p.2)) := by
  refine ⟨prepare_edge_list_eq_filter m.bond_type, prepare_edge_list_length m.bond_type, ?_⟩
  intro k
  rw [prepare_edge_features, List.getElem?_map]

end GraphConverter

section BatchCollator

/-- The two size attributes of a batched DGL graph that `collate` reads
(`number_of_nodes()`, `number_of_edges()`). -/
structure DGLGraph where
  numNodes : Nat
  numEdges : Nat
deriving DecidableEq, Repr

/-- Message of the Python `ZeroDivisionError` raised by `1./float(0)`. -/
def zeroDivisionMsg : String := "ZeroDivisionError: float division by zero"

/-- Message of the Python `ValueError` raised by unpacking `zip(*[])`. -/
def unpackErrorMsg : String := "ValueError: not enough values to unpack"

/-- One normalization table of `collate`:
`[torch.FloatTensor(size,1).fill_(1./float(size)) for size in tab]`, then
`torch.cat`. The fill value `1./float(size)` raises `ZeroDivisionError` when
a size is zero; values are the exact pre-`sqrt` rationals `1/size`. -/
def norm_tab : List Nat → Except String (List Rat)
  | [] => Except.ok []
  | s :: rest =>
    if s = 0 then Except.error zeroDivisionMsg
    else
      match norm_tab rest with
      | Except.error e => Except.error e
      | Except.ok t => Except.ok (List.replicate s ((s : Rat)⁻¹) ++ t)

/-- `MoleculeDataset.collate`: unzip the samples (`ValueError` on an empty
batch), batch the graphs, stack the labels in order, and build the per-node
and per-edge normalization vectors, applying `torch.sqrt` elementwise. -/
noncomputable def collate (samples : List (DGLGraph × Rat)) :
    Except String (DGLGraph × List Rat × List Real × List Real) :=
  if samples.isEmpty then Except.error unpackErrorMsg
  else
    match norm_tab (samples.map (fun p => p.1.numNodes)),
        norm_tab (samples.map (fun p => p.1.numEdges)) with
    | Except.error e, _ => Except.error e
    | Except.ok _, Except.error e => Except.error e
    | Except.ok n, Except.ok e =>
      Except.ok
        (⟨(samples.map (fun p => p.1.numNodes)).sum,
            (samples.map (fun p => p.1.numEdges)).sum⟩,
          samples.map (fun p => p.2),
          n.map (fun q : Rat => Real.sqrt (q : Real)),
          e.map (fun q : Rat => Real.sqrt (q : Real)))

theorem norm_tab_ok {sizes : List Nat} (h : ∀ s ∈ sizes, 0 < s) :
    norm_tab sizes
      = Except.ok (sizes.flatMap (fun s => List.replicate s ((s : Rat)⁻¹))) := by
  induction sizes with
  | nil => rfl
  | cons s rest ih =>
    have hs : ¬s = 0 := by
      have := h s (by simp)
      omega
    rw [norm_tab, if_neg hs, ih (fun x hx => h x (by simp [hx]))]
    simp [List.flatMap_cons]

theorem norm_tab_error {sizes : List Nat} (h : ∃ s ∈ sizes, s = 0) :
    norm_tab sizes = Except.error zeroDivisionMsg := by
  induction sizes with
  | nil => simp at h
  | cons s rest ih =>
    by_cases hs : s = 0
    · rw [norm_tab, if_pos hs]
    · rw [norm_tab, if_neg hs]
      have hrest : ∃ x ∈ rest, x = 0 := by
        obtain ⟨x, hx, hx0⟩ := h
        rcases List.mem_cons.mp hx with rfl | hx2
        · exact absurd hx0 hs
        · exact ⟨x, hx2, hx0⟩
      rw [ih hrest]

theorem sqrt_vector_eq (samples : List (DGLGraph × Rat)) (szf : DGLGraph × Rat → Nat) :
    ((samples.map szf).flatMap (fun s => List.replicate s ((s : Rat)⁻¹))).map
        (fun q : Rat => Real.sqrt (q : Real))
      = samples.flatMap (fun p => List.replicate (szf p)
          (Real.sqrt (1 / (szf p : Real)))) := by
  rw [List.flatMap_map, List.map_flatMap]
  refine congrArg (List.flatMap samples) (funext fun p => ?_)
  rw [List.map_replicate]
  refine congrArg (List.replicate (szf p)) (congrArg Real.sqrt ?_)
  push_cast
  rw [one_div]

theorem flatMap_replicate_length (samples : List (DGLGraph × Rat))
    (szf : DGLGraph × Rat → Nat) (v : DGLGraph × Rat → Real) :
    (samples.flatMap (fun p => List.replicate (szf p) (v p))).length
      = (samples.map szf).sum := by
  rw [List.length_flatMap]
  refine congrArg List.sum (List.map_congr_left ?_)
  intro p _
  exact List.length_replicate _ _

/-- C2: on a non-empty batch of graphs each with at least one node and one
edge, `collate` succeeds; the per-node normalization vector lists, in input
order, `numNodes g` copies of `sqrt(1/numNodes g)` for each graph `g` (so its
length is the total node count), and likewise per edge. -/
theorem collate_norm_spec (samples : List (DGLGraph × Rat)) (hne : samples ≠ [])
    (hn : ∀ p ∈ samples, 0 < p.1.numNodes) (he : ∀ p ∈ samples, 0 < p.1.numEdges) :
    collate samples = Except.ok
      (⟨(samples.map (fun p => p.1.numNodes)).sum, (samples.map (fun p => p.1.numEdges)).sum⟩,
        samples.map (fun p => p.2),
        samples.flatMap (fun p => List.replicate p.1.numNodes
          (Real.sqrt (1 / (p.1.numNodes : Real)))),
        samples.flatMap (fun p => List.replicate p.1.numEdges
          (Real.sqrt (1 / (p.1.numEdges : Real)))))
    ∧ (samples.flatMap (fun p => List.replicate p.1.numNodes
          (Real.sqrt (1 / (p.1.numNodes : Real))))).length
        = (samples.map (fun p => p.1.numNodes)).sum
    ∧ (samples.flatMap (fun p => List.replicate p.1.numEdges
          (Real.sqrt (1 / (p.1.numEdges : Real))))).length
        = (samples.map (fun p => p.1.numEdges)).sum := by
  refine ⟨?_, flatMap_replicate_length samples _ _, flatMap_replicate_length samples _ _⟩
  have hne2 : ¬samples.isEmpty = true := by
    simp [List.isEmpty_iff, hne]
  have hnodes : ∀ s ∈ samples.map (fun p => p.1.numNodes), 0 < s := by
    intro s hs
    obtain ⟨p, hp, rfl⟩ := List.mem_map.mp hs
    exact hn p hp
  have hedges : ∀ s ∈ samples.map (fun p => p.1.numEdges), 0 < s := by
    intro s hs
    obtain ⟨p, hp, rfl⟩ := List.mem_map.mp hs
    exact he p hp
  rw [collate, if_neg hne2, norm_tab_ok hnodes, norm_tab_ok hedges]
  dsimp only
  rw [sqrt_vector_eq samples (fun p => p.1.numNodes),
    sqrt_vector_eq samples (fun p => p.1.numEdges)]

/-- C2 witness: a two-graph batch with node counts 3 and 5, edge counts 2
and 1. -/
theorem collate_norm_spec_witness :
    (([(⟨3, 2⟩, (1 : Rat)), (⟨5, 1⟩, 2)] : List (DGLGraph × Rat)) ≠ []
      ∧ (∀ p ∈ ([(⟨3, 2⟩, (1 : Rat)), (⟨5, 1⟩, 2)] : List (DGLGraph × Rat)), 0 < p.1.numNodes)
      ∧ (∀ p ∈ ([(⟨3, 2⟩, (1 : Rat)), (⟨5, 1⟩, 2)] : List (DGLGraph × Rat)), 0 < p.1.numEdges))
    ∧ (collate [(⟨3, 2⟩, (1 : Rat)), (⟨5, 1⟩, 2)] = Except.ok
      (⟨(([(⟨3, 2⟩, (1 : Rat)), (⟨5, 1⟩, 2)] : List (DGLGraph × Rat)).map
            (fun p => p.1.numNodes)).sum,
          (([(⟨3, 2⟩, (1 : Rat)), (⟨5, 1⟩, 2)] : List (DGLGraph × Rat)).map
            (fun p => p.1.numEdges)).sum⟩,
        ([(⟨3, 2⟩, (1 : Rat)), (⟨5, 1⟩, 2)] : List (DGLGraph × Rat)).map (fun p => p.2),
        ([(⟨3, 2⟩, (1 : Rat)), (⟨5, 1⟩, 2)] : List (DGLGraph × Rat)).flatMap
          (fun p => List.replicate p.1.numNodes (Real.sqrt (1 / (p.1.numNodes : Real)))),
        ([(⟨3, 2⟩, (1 : Rat)), (⟨5, 1⟩, 2)] : List (DGLGraph × Rat)).flatMap
          (fun p => List.replicate p.1.numEdges (Real.sqrt (1 / (p.1.numEdges : Real)))))
    ∧ (([(⟨3, 2⟩, (1 : Rat)), (⟨5, 1⟩, 2)] : List (DGLGraph × Rat)).flatMap
          (fun p => List.replicate p.1.numNodes
            (Real.sqrt (1 / (p.1.numNodes : Real))))).length
        = (([(⟨3, 2⟩, (1 : Rat)), (⟨5, 1⟩, 2)] : List (DGLGraph × Rat)).map
            (fun p => p.1.numNodes)).sum
    ∧ (([(⟨3, 2⟩, (1 : Rat)), (⟨5, 1⟩, 2)] : List (DGLGraph × Rat)).flatMap
          (fun p => List.replicate p.1.numEdges
            (Real.sqrt (1 / (p.1.numEdges : Real))))).length
        = (([(⟨3, 2⟩, (1 : Rat)), (⟨5, 1⟩, 2)] : List (DGLGraph × Rat)).map
            (fun p => p.1.numEdges)).sum) :=
  ⟨⟨by decide, by decide, by decide⟩,
    collate_norm_spec [(⟨3, 2⟩, (1 : Rat)), (⟨5, 1⟩, 2)] (by decide) (by decide) (by decide)⟩

/-- C3: a batch containing a graph with zero nodes or zero edges makes
`collate` raise (the division `1./float(0)` is reached before any vector is
returned, so no infinite or NaN weight is ever produced — in this real-valued
model a returned weight would be `sqrt(1/s)` with `s > 0`). -/
theorem collate_rejects_degenerate (samples : List (DGLGraph × Rat))
    (h : ∃ p ∈ samples, p.1.numNodes = 0 ∨ p.1.numEdges = 0) :
    ∃ msg, collate samples = Except.error msg := by
  obtain ⟨p, hp, hcase⟩ := h
  have hne2 : ¬samples.isEmpty = true := by
    simp [List.isEmpty_iff]
    exact List.ne_nil_of_mem hp
  rw [collate, if_neg hne2]
  by_cases hzn : ∃ s ∈ samples.map (fun p => p.1.numNodes), s = 0
  · rw [norm_tab_error hzn]
    exact ⟨zeroDivisionMsg, rfl⟩
  · have hpe : p.1.numEdges = 0 := by
      rcases hcase with hc | hc
      · exact absurd ⟨p.1.numNodes, List.mem_map_of_mem _ hp, hc⟩ hzn
      · exact hc
    have hze : ∃ s ∈ samples.map (fun q => q.1.numEdges), s = 0 :=
      ⟨p.1.numEdges, List.mem_map_of_mem _ hp, hpe⟩
    have hn : ∀ s ∈ samples.map (fun q => q.1.numNodes), 0 < s := by
      intro s hs
      rcases Nat.eq_zero_or_pos s with rfl | hpos
      · exact absurd ⟨0, hs, rfl⟩ hzn
      · exact hpos
    rw [norm_tab_ok hn, norm_tab_error hze]
    exact ⟨zeroDivisionMsg, rfl⟩

/-- C3 witness: a single sample whose graph has zero nodes and zero edges. -/
theorem collate_rejects_degenerate_witness :
    (∃ p ∈ ([(⟨0, 0⟩, (0 : Rat))] : List (DGLGraph × Rat)),
      p.1.numNodes = 0 ∨ p.1.numEdges = 0)
    ∧ ∃ msg, collate [(⟨0, 0⟩, (0 : Rat))] = Except.error msg :=
  ⟨⟨(⟨0, 0⟩, (0 : Rat)), by simp, Or.inl rfl⟩,
    collate_rejects_degenerate [(⟨0, 0⟩, (0 : Rat))]
      ⟨(⟨0, 0⟩, (0 : Rat)), by simp, Or.inl rfl⟩⟩

end BatchCollator

section ChemStringRoundTrip

/-- Decoded augmented atom token (`Chem.Atom` plus the two setters used):
element symbol, formal charge, explicit hydrogen count. -/
structure ChemAtom where
  symbol : String
  charge : Int
  numExplicitHs : Nat
deriving DecidableEq, Repr

/-- The four RDKit bond orders the decoder can add. -/
inductive ChemBondType
  | single
  | double
  | triple
  | aromatic
deriving DecidableEq, Repr

/-- An editable molecular structure (`Chem.RWMol`): atoms in `AddAtom` order
and bonds in `AddBond` order as `(begin, end, order)` triples. -/
structure RWMol where
  atoms : List ChemAtom
  bonds : List (Nat × Nat × ChemBondType)
deriving DecidableEq, Repr

def plusTok : String := "+"
def minusTok : String := "-"
def h1Tok : String := "H1"
def h2Tok : String := "H2"
def h3Tok : String := "H3"

/-- `symbol2atom`: split the augmented symbol on whitespace, take the element
from the first token, then set charge and hydrogens from the presence of the
`+`, `-`, `H1`, `H2`, `H3` tokens (later checks overwrite earlier ones);
unrecognized tokens are ignored. -/
def symbol2atom (aug_symb : String) : ChemAtom :=
  let mylist := (aug_symb.split (fun c => c = ' ')).filter (fun s => s ≠ emptyStr)
  let a0 : ChemAtom := { symbol := mylist.headD emptyStr, charge := 0, numExplicitHs := 0 }
  let a1 := if plusTok ∈ mylist then { a0 with charge := 1 } else a0
  let a2 := if minusTok ∈ mylist then { a1 with charge := -1 } else a1
  let a3 := if h1Tok ∈ mylist then { a2 with numExplicitHs := 1 } else a2
  let a4 := if h2Tok ∈ mylist then { a3 with numExplicitHs := 2 } else a3
  if h3Tok ∈ mylist then { a4 with numExplicitHs := 3 } else a4

/-- Bond-name decoding in `from_pymol_to_smile`: `NONE` and unrecognized
names add no bond; the four known names select the bond order. -/
def strToBondType (s : String) : Option ChemBondType :=
  if s = "SINGLE" then some ChemBondType.single
  else if s = "DOUBLE" then some ChemBondType.double
  else if s = "TRIPLE" then some ChemBondType.triple
  else if s = "AROMATIC" then some ChemBondType.aromatic
  else none

/-- `from_mol_to_smile`, with the two external RDKit calls (`Chem.Kekulize`,
`Chem.MolToSmiles`) passed as oracle parameters; the spec treats the
cheminformatics toolkit as a correct external oracle. -/
def from_mol_to_smile (kekulize : RWMol → RWMol) (molToSmiles : RWMol → String)
    (mol : RWMol) (remove_aromatic : Bool) : String :=
  molToSmiles (if remove_aromatic then kekulize mol else mol)

/-- The `Chem.RWMol` built by `from_pymol_to_smile`: one atom per `atom_type`
entry decoded through the atom dictionary, then one scan of the strict upper
triangle `0 ≤ i < j < N` of `bond_type` adding a bond for every entry whose
bond-dictionary name decodes to a bond order. -/
def build_rwmol (pymol : Molecule) (atom_dict bond_dict : Dictionary String) : RWMol :=
  { atoms := pymol.atom_type.map (fun tp =>
      symbol2atom (atom_dict.idx2word.getD tp.toNat emptyStr))
    bonds := (List.range pymol.num_atom).flatMap (fun i =>
      (List.range' (i + 1) (pymol.num_atom - (i + 1))).filterMap (fun j =>
        (strToBondType (bond_dict.idx2word.getD (entry pymol.bond_type i j).toNat
          emptyStr)).map (fun t => (i, j, t)))) }

/-- `from_pymol_to_smile`, oracle-parameterized as `from_mol_to_smile`. -/
def from_pymol_to_smile (kekulize : RWMol → RWMol) (molToSmiles : RWMol → String)
    (pymol : Molecule) (atom_dict bond_dict : Dictionary String)
    (remove_aromatic : Bool) : String :=
  from_mol_to_smile kekulize molToSmiles (build_rwmol pymol atom_dict bond_dict)
    remove_aromatic

/-- C9: `from_pymol_to_smile` reads only the strict upper triangle of
`bond_type`: two records with the same `num_atom` and `atom_type` agreeing on
all entries `i < j` produce the same chemical string, for every toolkit
oracle, dictionary pair, and `remove_aromatic` flag, whatever their diagonal
and lower-triangle entries. -/
theorem from_pymol_to_smile_ignores_lower_triangle
    (kekulize : RWMol → RWMol) (molToSmiles : RWMol → String)
    (p1 p2 : Molecule) (atom_dict bond_dict : Dictionary String) (ra : Bool)
    (hN : p1.num_atom = p2.num_atom) (hat : p1.atom_type = p2.atom_type)
    (hup : ∀ j, j < p1.num_atom → ∀ i, i < j →
      entry p1.bond_type i j = entry p2.bond_type i j) :
    from_pymol_to_smile kekulize molToSmiles p1 atom_dict bond_dict ra
      = from_pymol_to_smile kekulize molToSmiles p2 atom_dict bond_dict ra := by
  have hbuild : build_rwmol p1 atom_dict bond_dict = build_rwmol p2 atom_dict bond_dict := by
    rw [build_rwmol, build_rwmol, hat, ← hN]
    refine congrArg (RWMol.mk _) ?_
    refine congrArg (List.flatMap (List.range p1.num_atom)) (funext fun i => ?_)
    refine List.filterMap_congr ?_
    intro j hj
    have hjr := List.mem_range'_1.mp hj
    have hij : i < j := by omega
    have hjN : j < p1.num_atom := by omega
    rw [hup j hjN i hij]
  rw [from_pymol_to_smile, from_pymol_to_smile, hbuild]

/-- C9 witness: two 2-atom records agreeing above the diagonal but with
different diagonal and lower-triangle bond entries, under a concrete oracle
pair and empty dictionaries. -/
theorem from_pymol_to_smile_ignores_lower_triangle_witness :
    ((⟨2, [0, 0], [], [[0, 1], [9, 0]], [], 0, 0, emptyStr⟩ : Molecule).num_atom
        = (⟨2, [0, 0], [], [[4, 1], [7, 5]], [], 0, 0, emptyStr⟩ : Molecule).num_atom
      ∧ (⟨2, [0, 0], [], [[0, 1], [9, 0]], [], 0, 0, emptyStr⟩ : Molecule).atom_type
        = (⟨2, [0, 0], [], [[4, 1], [7, 5]], [], 0, 0, emptyStr⟩ : Molecule).atom_type
      ∧ (∀ j, j < (⟨2, [0, 0], [], [[0, 1], [9, 0]], [], 0, 0,
            emptyStr⟩ : Molecule).num_atom → ∀ i, i < j →
          entry [[0, 1], [9, 0]] i j = entry [[4, 1], [7, 5]] i j))
    ∧ from_pymol_to_smile id (fun mol => (mol.bonds.length : Nat).repr)
        ⟨2, [0, 0], [], [[0, 1], [9, 0]], [], 0, 0, emptyStr⟩
        (emptyDictionary String) (emptyDictionary String) false
      = from_pymol_to_smile id (fun mol => (mol.bonds.length : Nat).repr)
        ⟨2, [0, 0], [], [[4, 1], [7, 5]], [], 0, 0, emptyStr⟩
        (emptyDictionary String) (emptyDictionary String) false :=
  ⟨⟨rfl, rfl, by decide⟩,
    from_pymol_to_smile_ignores_lower_triangle id (fun mol => (mol.bonds.length : Nat).repr)
      ⟨2, [0, 0], [], [[0, 1], [9, 0]], [], 0, 0, emptyStr⟩
      ⟨2, [0, 0], [], [[4, 1], [7, 5]], [], 0, 0, emptyStr⟩
      (emptyDictionary String) (emptyDictionary String) false rfl rfl (by decide)⟩

end ChemStringRoundTrip
